import Mathlib

/-!
# Verification of the k9s render helpers (`internal/render/helpers.go`)

Shallow embedding of the display-formatting core: byte humanization,
decimal scaling, ratio annotation, key/value serialization, temporal
sentinels and width-exact layout fitting.

Modelling conventions:
* Go strings are modelled as `List Char` (a Go string is a byte slice;
  all outputs considered here are built rune by rune).  Map keys and
  values are modelled as Lean `String` so that the lexicographic order
  used by `sort.Strings` is available (byte-wise UTF-8 order coincides
  with code-point order).
* Go `int`/`int64` are modelled as `ℤ`; `uint64` conversions take the
  value modulo `2 ^ 64`.
* Floating-point expressions are idealized as exact arithmetic: the
  `math.Floor(... + 0.5)` expression of `humanateBytes` becomes an exact
  natural-number floor, and `fmt.Sprintf("%.Nf", x)` becomes rounding
  half-to-even at `N` decimals of the exact rational value.
-/

/-- UTF-8 encoded length of a rune, as Go's `len(string(r))` computes it. -/
def utf8Len (c : Char) : ℕ :=
  if c.toNat < 0x80 then 1
  else if c.toNat < 0x800 then 2
  else if c.toNat < 0x10000 then 3
  else 4

/-- Modelled from the spec: the rendered terminal width of a rune
(`go-runewidth`'s `RuneWidth`, an external collaborator).  Wide CJK glyphs
occupy two columns, every other rune one column (zero-width combining
marks are not modelled; no theorem below depends on them). -/
def runeWidth (c : Char) : ℕ :=
  if 0x4E00 ≤ c.toNat ∧ c.toNat ≤ 0x9FFF then 2 else 1

/-- Rendered display width of a string (`runewidth.StringWidth`). -/
def stringWidth : List Char → ℕ
  | [] => 0
  | c :: cs => runeWidth c + stringWidth cs

/-- Go byte length of a string (`len(s)`). -/
def byteLen : List Char → ℕ
  | [] => 0
  | c :: cs => utf8Len c + byteLen cs

/-- The single-glyph ellipsis `tview.SemigraphicsHorizontalEllipsis` (U+2026). -/
def ellipsisChar : Char := Char.ofNat 0x2026

/-- Modelled from the spec: the greedy prefix-taking loop of
`runewidth.Truncate` — keep consuming runes while the accumulated width
plus the next rune still fits in the budget `b`. -/
def takeWidth : List Char → ℤ → List Char
  | [], _ => []
  | c :: cs, b =>
    if (runeWidth c : ℤ) ≤ b then c :: takeWidth cs (b - runeWidth c) else []

/-- Modelled from the spec: `runewidth.Truncate s w tail` with
`tail = "…"` — return `s` unchanged when it already fits, otherwise the
widest prefix fitting in `w - width(tail)` columns with the tail appended. -/
def truncateRW (s : List Char) (w : ℤ) : List Char :=
  if (stringWidth s : ℤ) ≤ w then s
  else takeWidth s (w - stringWidth [ellipsisChar]) ++ [ellipsisChar]

/-- `Truncate` from helpers.go: truncate to the given width, suffixing the
single-glyph ellipsis when needed. -/
def Truncate (str : List Char) (width : ℤ) : List Char :=
  truncateRW str width

/-- `Pad` from helpers.go: compares the *byte* length of `s` with the
target width; equal lengths are returned unchanged, longer strings are
delegated to `Truncate`, shorter ones are right-padded with spaces. -/
def Pad (s : List Char) (width : ℤ) : List Char :=
  if (byteLen s : ℤ) = width then s
  else if (byteLen s : ℤ) > width then Truncate s width
  else s ++ List.replicate (width - byteLen s).toNat ' '

theorem runeWidth_pos (c : Char) : 1 ≤ runeWidth c := by
  unfold runeWidth; split <;> omega

theorem runeWidth_le_two (c : Char) : runeWidth c ≤ 2 := by
  unfold runeWidth; split <;> omega

theorem utf8Len_pos (c : Char) : 1 ≤ utf8Len c := by
  unfold utf8Len; split <;> [omega; (split <;> [omega; (split <;> omega)])]

theorem runeWidth_le_utf8Len (c : Char) : runeWidth c ≤ utf8Len c := by
  unfold runeWidth utf8Len
  repeat' split
  all_goals omega

theorem stringWidth_append (s t : List Char) :
    stringWidth (s ++ t) = stringWidth s + stringWidth t := by
  induction s with
  | nil => simp [stringWidth]
  | cons c cs ih => simp [stringWidth, ih]; omega

theorem byteLen_append (s t : List Char) :
    byteLen (s ++ t) = byteLen s + byteLen t := by
  induction s with
  | nil => simp [byteLen]
  | cons c cs ih => simp [byteLen, ih]; omega

theorem stringWidth_le_byteLen (s : List Char) : stringWidth s ≤ byteLen s := by
  induction s with
  | nil => simp [stringWidth, byteLen]
  | cons c cs ih =>
    have := runeWidth_le_utf8Len c
    simp [stringWidth, byteLen]; omega

/-- With a non-positive budget the truncation loop takes nothing. -/
theorem takeWidth_nonpos (s : List Char) (b : ℤ) (hb : b ≤ 0) :
    takeWidth s b = [] := by
  cases s with
  | nil => rfl
  | cons c cs =>
    have h1 := runeWidth_pos c
    simp only [takeWidth]
    rw [if_neg]
    omega

/-- The truncation loop never overshoots a non-negative budget. -/
theorem stringWidth_takeWidth_le (s : List Char) (b : ℤ) (hb : 0 ≤ b) :
    (stringWidth (takeWidth s b) : ℤ) ≤ b := by
  induction s generalizing b with
  | nil => simpa [takeWidth, stringWidth] using hb
  | cons c cs ih =>
    simp only [takeWidth]
    split
    · next h =>
      have hrec := ih (b - runeWidth c) (by omega)
      simp only [stringWidth]
      push_cast
      push_cast at hrec
      omega
    · simpa [stringWidth] using hb

/-- Maximality of the truncation loop: if the whole string exceeds the
budget, the taken prefix reaches within two columns of the budget
(a rune is at most two columns wide). -/
theorem takeWidth_max (s : List Char) (b : ℤ) (h : b < (stringWidth s : ℤ)) :
    b - 2 < (stringWidth (takeWidth s b) : ℤ) := by
  induction s generalizing b with
  | nil => simp [stringWidth] at h; simp [takeWidth, stringWidth]; omega
  | cons c cs ih =>
    have h2 := runeWidth_le_two c
    simp only [takeWidth]
    split
    · next hc =>
      have hcs : b - (runeWidth c : ℤ) < (stringWidth cs : ℤ) := by
        simp only [stringWidth] at h; push_cast at h ⊢; omega
      have hrec := ih (b - runeWidth c) hcs
      simp only [stringWidth]
      push_cast at hrec ⊢
      omega
    · next hc =>
      simp only [stringWidth]
      push_cast at hc ⊢
      omega

theorem byteLen_replicate (n : ℕ) : byteLen (List.replicate n ' ') = n := by
  induction n with
  | zero => rfl
  | succ k ih => simp [List.replicate, byteLen, ih, utf8Len]; omega

theorem stringWidth_replicate_space (n : ℕ) :
    stringWidth (List.replicate n ' ') = n := by
  induction n with
  | zero => rfl
  | succ k ih => simp [List.replicate, stringWidth, ih, runeWidth]; omega

theorem ascii_runeWidth {c : Char} (h : c.toNat < 128) : runeWidth c = 1 := by
  unfold runeWidth; rw [if_neg]; omega

theorem ascii_utf8Len {c : Char} (h : c.toNat < 128) : utf8Len c = 1 := by
  unfold utf8Len; rw [if_pos]; omega

theorem ascii_stringWidth_eq_byteLen (s : List Char) (h : ∀ c ∈ s, c.toNat < 128) :
    stringWidth s = byteLen s ∧ stringWidth s = s.length := by
  induction s with
  | nil => exact ⟨rfl, rfl⟩
  | cons c cs ih =>
    have hc := h c (by simp)
    have := ih (fun x hx => h x (by simp [hx]))
    simp [stringWidth, byteLen, ascii_runeWidth hc, ascii_utf8Len hc]
    omega

/-- On strings of single-column runes the truncation loop consumes
exactly the budget whenever the whole string exceeds it. -/
theorem takeWidth_ascii_exact (s : List Char) (b : ℤ)
    (h1 : ∀ c ∈ s, runeWidth c = 1) (h2 : b < (stringWidth s : ℤ)) (h3 : 0 ≤ b) :
    (stringWidth (takeWidth s b) : ℤ) = b := by
  induction s generalizing b with
  | nil => simp [stringWidth] at h2; omega
  | cons c cs ih =>
    have hc := h1 c (by simp)
    simp only [takeWidth, hc]
    split
    · next hcb =>
      push_cast
      by_cases hb1 : b - 1 < (stringWidth cs : ℤ)
      · have := ih (b - 1) (fun x hx => h1 x (by simp [hx])) hb1 (by omega)
        simp only [stringWidth, hc]
        push_cast
        omega
      · -- budget covers the whole tail: impossible since the whole string exceeds b
        push_neg at hb1
        simp only [stringWidth, hc] at h2
        push_cast at h2
        have hle := stringWidth_takeWidth_le cs (b - 1) (by omega)
        have hmax := takeWidth_max cs (b - 1) (by omega)
        omega
    · next hcb =>
      simp only [stringWidth]
      push_cast at hcb ⊢
      omega

def wideGlyph : Char := Char.ofNat 0x65E5

/-- C2 counterexample inputs: an ASCII string padded to width 0 yields the
one-column ellipsis, and a single wide CJK glyph whose byte length equals
the requested width is returned unchanged at display width 2. -/
theorem pad_width_claim_false :
    stringWidth (Pad ['a', 'b'] 0) ≠ 0 ∧
      stringWidth (Pad [wideGlyph] 3) ≠ 3 := by
  decide

/-- C2 (amended): for strings of single-byte single-column (ASCII) runes
and any target width `w ≥ 1`, `Pad` returns a string whose rendered
display width is exactly `w`. -/
theorem pad_width_exact_ascii (s : List Char) (w : ℤ)
    (hs : ∀ c ∈ s, c.toNat < 128) (hw : 1 ≤ w) :
    (stringWidth (Pad s w) : ℤ) = w := by
  obtain ⟨hbw, _⟩ := ascii_stringWidth_eq_byteLen s hs
  have hell : stringWidth [ellipsisChar] = 1 := by decide
  by_cases h1 : (byteLen s : ℤ) = w
  · have e : Pad s w = s := by unfold Pad; rw [if_pos h1]
    rw [e]
    omega
  · by_cases h2 : (byteLen s : ℤ) > w
    · have hsw : ¬ (stringWidth s : ℤ) ≤ w := by omega
      simp only [Pad, if_neg h1, if_pos h2, Truncate, truncateRW, if_neg hsw, hell,
        Nat.cast_one]
      rw [stringWidth_append]
      have hx := takeWidth_ascii_exact s (w - 1)
        (fun c hc => ascii_runeWidth (hs c hc)) (by omega) (by omega)
      rw [hell]
      omega
    · have hlt : (byteLen s : ℤ) < w := by omega
      simp only [Pad, if_neg h1, if_neg h2]
      rw [stringWidth_append, stringWidth_replicate_space]
      have : ((w - (byteLen s : ℤ)).toNat : ℤ) = w - byteLen s :=
        Int.toNat_of_nonneg (by omega)
      omega

/-- C9: `Pad` is idempotent for every string and width. -/
theorem pad_idempotent (s : List Char) (w : ℤ) :
    Pad (Pad s w) w = Pad s w := by
  have hell : stringWidth [ellipsisChar] = 1 := by decide
  have hb3 : byteLen [ellipsisChar] = 3 := by decide
  by_cases h1 : (byteLen s : ℤ) = w
  · have e : Pad s w = s := by simp [Pad, h1]
    rw [e]
    exact e
  · by_cases h2 : (byteLen s : ℤ) > w
    · have e : Pad s w = Truncate s w := by simp [Pad, h1, h2]
      by_cases h3 : (stringWidth s : ℤ) ≤ w
      · have e2 : Truncate s w = s := by simp [Truncate, truncateRW, h3]
        have es : Pad s w = s := e.trans e2
        rw [es]
        exact es
      · push_neg at h3
        have e2 : Truncate s w =
            takeWidth s (w - 1) ++ [ellipsisChar] := by
          simp only [Truncate, truncateRW, if_neg (not_le.mpr h3), hell, Nat.cast_one]
        set p := takeWidth s (w - 1) with hp
        have hmax : (w - 1) - 2 < (stringWidth p : ℤ) :=
          takeWidth_max s (w - 1) (by omega)
        have hpb := stringWidth_le_byteLen p
        have hblr : byteLen (p ++ [ellipsisChar]) = byteLen p + 3 := by
          rw [byteLen_append, hb3]
        have hswr : stringWidth (p ++ [ellipsisChar]) = stringWidth p + 1 := by
          rw [stringWidth_append, hell]
        have hgt : (byteLen (p ++ [ellipsisChar]) : ℤ) > w := by
          rw [hblr]; push_cast; omega
        have e3 : Pad (p ++ [ellipsisChar]) w = Truncate (p ++ [ellipsisChar]) w := by
          simp only [Pad, if_neg (by omega : ¬ (byteLen (p ++ [ellipsisChar]) : ℤ) = w),
            if_pos hgt]
        by_cases h4 : 0 ≤ w - 1
        · have hwle : (stringWidth p : ℤ) ≤ w - 1 := by
            rw [hp]; exact stringWidth_takeWidth_le s (w - 1) h4
          have hfit : (stringWidth (p ++ [ellipsisChar]) : ℤ) ≤ w := by
            rw [hswr]; push_cast; omega
          have e4 : Truncate (p ++ [ellipsisChar]) w = p ++ [ellipsisChar] := by
            simp [Truncate, truncateRW, hfit]
          rw [e, e2, e3, e4]
        · have hp0 : p = [] := by
            rw [hp]; exact takeWidth_nonpos s (w - 1) (by omega)
          have hnofit : ¬ (stringWidth (p ++ [ellipsisChar]) : ℤ) ≤ w := by
            rw [hswr, hp0]
            simp [stringWidth]
            omega
          have e4 : Truncate (p ++ [ellipsisChar]) w = p ++ [ellipsisChar] := by
            simp only [Truncate, truncateRW, if_neg hnofit, hell, Nat.cast_one]
            rw [takeWidth_nonpos (p ++ [ellipsisChar]) (w - 1) (by omega), hp0]
          rw [e, e2, e3, e4]
    · have hlt : (byteLen s : ℤ) < w := by omega
      have e : Pad s w = s ++ List.replicate (w - byteLen s).toNat ' ' := by
        simp [Pad, h1, h2]
      have hbl : (byteLen (s ++ List.replicate (w - byteLen s).toNat ' ') : ℤ) = w := by
        rw [byteLen_append, byteLen_replicate]
        have : ((w - (byteLen s : ℤ)).toNat : ℤ) = w - byteLen s :=
          Int.toNat_of_nonneg (by omega)
        push_cast
        omega
      have e2 : Pad (s ++ List.replicate (w - byteLen s).toNat ' ') w =
          s ++ List.replicate (w - byteLen s).toNat ' ' := by
        unfold Pad
        rw [if_pos hbl]
      rw [e, e2]

/-- Modelled from the spec: the zero-marker sentinel (`ZeroValue` of
`internal/render/const.go`, which is outside the extracted source). -/
def ZeroValue : List Char := ['0']

/-- Modelled from the spec: the not-applicable sentinel (`NAValue`). -/
def NAValue : List Char := ['n', '/', 'a']

/-- Modelled from the spec: the unknown-value sentinel (`UnknownValue`),
distinct from the not-applicable one. -/
def UnknownValue : List Char := ['<', 'u', 'n', 'k', 'n', 'o', 'w', 'n', '>']

def natReprGo : ℕ → ℕ → List Char
  | 0, _ => []
  | fuel + 1, n =>
    if n < 10 then [Nat.digitChar n]
    else natReprGo fuel (n / 10) ++ [Nat.digitChar (n % 10)]

/-- Decimal digit string of a natural number, as `fmt` prints it; the
fuel argument keeps the recursion structural. -/
def natRepr (n : ℕ) : List Char := natReprGo (n + 1) n

/-- `strings.TrimSuffix(s, ".0")`. -/
def trimDotZero (l : List Char) : List Char :=
  if l.drop (l.length - 2) = ['.', '0'] then l.take (l.length - 2) else l

/-- `strings.TrimSuffix(s, "0")`. -/
def trimZero (l : List Char) : List Char :=
  if l.drop (l.length - 1) = ['0'] then l.take (l.length - 1) else l

/-- The leading-"0." strip performed by `strings.TrimPrefix(s, "0.")`. -/
def stripZeroDot (l : List Char) : List Char :=
  if l.take 2 = ['0', '.'] then l.drop 2 else l

/-- Round `a / b` (for `b > 0`) to the nearest integer, ties to even:
the rounding `fmt.Sprintf("%.Nf")` applies at the last kept digit. -/
def rhe (a b : ℕ) : ℕ :=
  if 2 * (a % b) < b then a / b
  else if b < 2 * (a % b) then a / b + 1
  else if (a / b) % 2 = 0 then a / b else a / b + 1

def logGo : ℕ → ℕ → ℕ → ℕ
  | 0, _, _ => 0
  | fuel + 1, b, n => if 1 < b ∧ b ≤ n then logGo fuel b (n / b) + 1 else 0

/-- `math.Floor(logn(float64(n), b))` idealized exactly: the integer
logarithm, with fuel to keep the recursion structural (shown below to
agree with `Nat.log`). -/
def natLog (b n : ℕ) : ℕ := logGo n b n

def sizesTable : List (List Char) := [[], ['K'], ['M'], ['G'], ['T'], ['P'], ['E']]

/-- The scaled value of `humanateBytes` in tenths:
`math.Floor(float64(s)/math.Pow(base, e)*10 + 0.5)` with `e = ⌊log_1024 s⌋`,
computed exactly as `(20 s + 1024^e) / (2 · 1024^e)`. -/
def humanM (s : ℕ) : ℕ :=
  (20 * s + 1024 ^ natLog 1024 s) / (2 * 1024 ^ natLog 1024 s)

/-- The formatted scaled value of `humanateBytes`: `val < 10` (that is,
`humanM s < 100`) selects `%.1f`, which prints the digits of `humanM s`
around a decimal dot, otherwise `%.0f` prints the half-even rounding of
`humanM s / 10`. -/
def humanValStr (s : ℕ) : List Char :=
  if humanM s < 100 then natRepr (humanM s / 10) ++ ['.', Nat.digitChar (humanM s % 10)]
  else natRepr (rhe (humanM s) 10)

/-- `humanateBytes` from helpers.go: literal `"N B"` below 10, otherwise
the formatted scaled value with its trailing `".0"` stripped, suffixed
with the magnitude letter `sizes[e]`. -/
def humanateBytes (s : ℕ) : List Char :=
  if s < 10 then natRepr s ++ [' ', 'B']
  else trimDotZero (humanValStr s) ++ sizesTable.getD (natLog 1024 s) []

/-- `humanizeBytes` from helpers.go: zero maps to the zero-marker
sentinel, any other `int64` is reinterpreted as `uint64` and humanized
with base 1024. -/
def humanizeBytes (v : ℤ) : List Char :=
  if v = 0 then ZeroValue else humanateBytes (v % (2 ^ 64)).toNat

theorem natReprGo_fuel (f1 : ℕ) :
    ∀ f2 n, n < f1 → n < f2 → natReprGo f1 n = natReprGo f2 n := by
  induction f1 with
  | zero => intro f2 n h1 _; omega
  | succ f ih =>
    intro f2 n h1 h2
    cases f2 with
    | zero => omega
    | succ g =>
      simp only [natReprGo]
      by_cases hn : n < 10
      · simp [hn]
      · have hpos : 0 < n := by omega
        have hdiv : n / 10 < n := Nat.div_lt_self hpos (by norm_num)
        rw [if_neg hn, if_neg hn, ih g (n / 10) (by omega) (by omega)]

/-- The defining recurrence of `natRepr`, free of fuel. -/
theorem natRepr_eq (n : ℕ) :
    natRepr n =
      if n < 10 then [Nat.digitChar n]
      else natRepr (n / 10) ++ [Nat.digitChar (n % 10)] := by
  by_cases hn : n < 10
  · rw [if_pos hn]
    unfold natRepr
    simp only [natReprGo]
    rw [if_pos hn]
  · rw [if_neg hn]
    have hdiv : n / 10 < n := Nat.div_lt_self (by omega) (by norm_num)
    show natReprGo (n + 1) n = natReprGo (n / 10 + 1) (n / 10) ++ _
    have hstep : natReprGo (n + 1) n = natReprGo n (n / 10) ++ [Nat.digitChar (n % 10)] := by
      simp only [natReprGo]
      rw [if_neg hn]
    rw [hstep, natReprGo_fuel n (n / 10 + 1) (n / 10) (by omega) (by omega)]

theorem natRepr_length_pos (n : ℕ) : 1 ≤ (natRepr n).length := by
  rw [natRepr_eq]
  split <;> simp

theorem natRepr_length_le (k : ℕ) :
    ∀ n, 1 ≤ k → n < 10 ^ k → (natRepr n).length ≤ k := by
  induction k with
  | zero => intro n h _; omega
  | succ k ih =>
    intro n _ hn
    by_cases h10 : n < 10
    · rw [natRepr_eq, if_pos h10]; simp
    · have hk : 1 ≤ k := by
        by_contra hk0
        have : k = 0 := by omega
        subst this
        simp at hn
        omega
      have hdiv : n / 10 < 10 ^ k := by
        rw [Nat.div_lt_iff_lt_mul (by norm_num)]
        calc n < 10 ^ (k + 1) := hn
        _ = 10 ^ k * 10 := by ring
      rw [natRepr_eq, if_neg h10]
      simp only [List.length_append, List.length_cons, List.length_nil]
      have := ih (n / 10) hk hdiv
      omega

theorem natRepr_length_two_le (n : ℕ) (h : 10 ≤ n) : 2 ≤ (natRepr n).length := by
  rw [natRepr_eq, if_neg (by omega)]
  simp only [List.length_append, List.length_cons, List.length_nil]
  have := natRepr_length_pos (n / 10)
  omega

theorem digitChar_range : ∀ d, d < 10 → 48 ≤ (Nat.digitChar d).toNat ∧ (Nat.digitChar d).toNat ≤ 57 := by
  decide

theorem natRepr_digits (n : ℕ) :
    ∀ c ∈ natRepr n, 48 ≤ c.toNat ∧ c.toNat ≤ 57 := by
  induction n using Nat.strong_induction_on with
  | _ n ih =>
    intro c hc
    rw [natRepr_eq] at hc
    by_cases h10 : n < 10
    · rw [if_pos h10] at hc
      simp at hc
      subst hc
      exact digitChar_range n h10
    · rw [if_neg h10] at hc
      rcases List.mem_append.mp hc with h | h
      · exact ih (n / 10) (Nat.div_lt_self (by omega) (by norm_num)) c h
      · simp at h
        subst h
        exact digitChar_range (n % 10) (Nat.mod_lt n (by norm_num))

/-- Stripping a trailing `".0"` does nothing to a pure digit string. -/
theorem trimDotZero_digits (l : List Char)
    (h : ∀ c ∈ l, 48 ≤ c.toNat ∧ c.toNat ≤ 57) : trimDotZero l = l := by
  unfold trimDotZero
  rw [if_neg]
  intro hd
  have : '.' ∈ l.drop (l.length - 2) := by rw [hd]; simp
  have hmem : '.' ∈ l := List.drop_subset _ l this
  exact absurd (h '.' hmem) (by decide)

theorem natLog_eq_log (b n : ℕ) : natLog b n = Nat.log b n := by
  suffices h : ∀ fuel m, m ≤ fuel → logGo fuel b m = Nat.log b m by
    exact h n n le_rfl
  intro fuel
  induction fuel with
  | zero =>
    intro m hm
    have : m = 0 := by omega
    subst this
    simp [logGo, Nat.log_zero_right]
  | succ f ih =>
    intro m hm
    simp only [logGo]
    split
    · next hcond =>
      have hpos : 0 < m := by omega
      have hdiv : m / b < m := Nat.div_lt_self hpos hcond.1
      rw [ih (m / b) (by omega), ← Nat.log_of_one_lt_of_le hcond.1 hcond.2]
    · next hcond =>
      push_neg at hcond
      rcases Nat.lt_or_ge b 2 with hb | hb
      · exact (Nat.log_eq_zero_iff.mpr (Or.inr (by omega))).symm
      · have hnb : m < b := hcond (by omega)
        exact (Nat.log_eq_zero_iff.mpr (Or.inl hnb)).symm

theorem rhe_bounds (a b : ℕ) : a / b ≤ rhe a b ∧ rhe a b ≤ a / b + 1 := by
  unfold rhe
  repeat' split
  all_goals omega

theorem sizesTable_getD_length_le (e : ℕ) : (sizesTable.getD e []).length ≤ 1 := by
  by_cases h : e < 7
  · interval_cases e <;> decide
  · rw [List.getD_eq_default]
    · simp
    · simp [sizesTable]
      omega

theorem sizesTable_getD_length_one (e : ℕ) (h1 : 1 ≤ e) (h2 : e ≤ 6) :
    (sizesTable.getD e []).length = 1 := by
  interval_cases e <;> decide

theorem digitChar_zero_iff : ∀ d, d < 10 → (Nat.digitChar d = '0' ↔ d = 0) := by
  decide

theorem trimDotZero_dz (d : Char) : trimDotZero [d, '.', '0'] = [d] := by
  unfold trimDotZero
  simp

theorem trimDotZero_ndz (d c : Char) (hc : c ≠ '0') :
    trimDotZero [d, '.', c] = [d, '.', c] := by
  unfold trimDotZero
  rw [if_neg]
  simp [hc]

/-- Bounds used throughout: for `10 ≤ s`, the tenths value `humanM s`
lies in `[10, 10240]` whenever `s < 1024^(e+1)`. -/
theorem humanM_bounds (s : ℕ) (hs : 10 ≤ s) :
    10 ≤ humanM s ∧ humanM s ≤ 10240 := by
  have hP : 0 < 1024 ^ natLog 1024 s := pow_pos (by norm_num) _
  have hle : 1024 ^ natLog 1024 s ≤ s := by
    rw [natLog_eq_log]
    exact Nat.pow_log_le_self 1024 (by omega)
  have hlt : s < 1024 * 1024 ^ natLog 1024 s := by
    have := Nat.lt_pow_succ_log_self (b := 1024) (by norm_num) s
    rw [natLog_eq_log]
    calc s < 1024 ^ (Nat.log 1024 s + 1) := this
    _ = 1024 * 1024 ^ Nat.log 1024 s := by ring
  constructor
  · rw [humanM, Nat.le_div_iff_mul_le (by omega)]
    omega
  · have : humanM s < 10241 := by
      rw [humanM, Nat.div_lt_iff_lt_mul (by omega)]
      omega
    omega

/-- In the `%.1f` branch of `humanateBytes` the exponent is at least 1:
with exponent 0 the tenths value is `10 s ≥ 100`. -/
theorem humanM_small_exponent (s : ℕ) (hs : 10 ≤ s) (hm : humanM s < 100) :
    1 ≤ natLog 1024 s := by
  by_contra h0
  have he0 : natLog 1024 s = 0 := by omega
  rw [humanM, he0] at hm
  norm_num at hm
  omega

/-- Exponent upper bound: any value below `2^64` stays within the seven
magnitude suffixes. -/
theorem natLog_lt_seven (s : ℕ) (h : s < 2 ^ 64) : natLog 1024 s < 7 := by
  rw [natLog_eq_log]
  rcases eq_or_ne s 0 with h0 | h0
  · rw [h0, Nat.log_zero_right]
    norm_num
  · exact Nat.log_lt_of_lt_pow h0 (lt_of_lt_of_le h (by norm_num))

theorem humanateBytes_length (s : ℕ) (h1 : 1 ≤ s) (h2 : s < 2 ^ 64) :
    2 ≤ (humanateBytes s).length ∧ (humanateBytes s).length ≤ 6 := by
  by_cases hs : s < 10
  · unfold humanateBytes
    rw [if_pos hs, natRepr_eq, if_pos hs]
    simp
  · push_neg at hs
    unfold humanateBytes
    rw [if_neg (by omega)]
    obtain ⟨hm10, hm10240⟩ := humanM_bounds s hs
    have hsuf := sizesTable_getD_length_le (natLog 1024 s)
    rw [List.length_append]
    by_cases hm : humanM s < 100
    · have he1 := humanM_small_exponent s hs hm
      have he6 : natLog 1024 s ≤ 6 := by
        have := natLog_lt_seven s h2
        omega
      have hsuf1 := sizesTable_getD_length_one _ he1 he6
      have hq : humanM s / 10 < 10 := by omega
      have hone : natRepr (humanM s / 10) = [Nat.digitChar (humanM s / 10)] := by
        rw [natRepr_eq, if_pos hq]
      unfold humanValStr
      rw [if_pos hm, hone]
      by_cases hz : humanM s % 10 = 0
      · rw [hz]
        have : ([Nat.digitChar (humanM s / 10)] ++ ['.', Nat.digitChar 0]) =
            [Nat.digitChar (humanM s / 10), '.', '0'] := by rfl
        rw [this, trimDotZero_dz]
        simp only [List.length_append, List.length_cons, List.length_nil]
        omega
      · have hcne : Nat.digitChar (humanM s % 10) ≠ '0' := by
          intro hcontra
          exact hz ((digitChar_zero_iff _ (by omega)).mp hcontra)
        have : ([Nat.digitChar (humanM s / 10)] ++ ['.', Nat.digitChar (humanM s % 10)]) =
            [Nat.digitChar (humanM s / 10), '.', Nat.digitChar (humanM s % 10)] := by rfl
        rw [this, trimDotZero_ndz _ _ hcne]
        simp only [List.length_append, List.length_cons, List.length_nil]
        omega
    · push_neg at hm
      unfold humanValStr
      rw [if_neg (by omega)]
      rw [trimDotZero_digits _ (natRepr_digits _)]
      obtain ⟨hrl, hru⟩ := rhe_bounds (humanM s) 10
      have hlen2 : 2 ≤ (natRepr (rhe (humanM s) 10)).length :=
        natRepr_length_two_le _ (by omega)
      have hlen4 : (natRepr (rhe (humanM s) 10)).length ≤ 4 :=
        natRepr_length_le 4 _ (by norm_num) (by omega)
      omega

/-- C5: for every positive `int64` byte count the humanized string is
between 2 and 6 characters long. -/
theorem humanizeBytes_length_bounds (v : ℤ) (h1 : 1 ≤ v) (h2 : v < 2 ^ 63) :
    2 ≤ (humanizeBytes v).length ∧ (humanizeBytes v).length ≤ 6 := by
  unfold humanizeBytes
  rw [if_neg (by omega), Int.emod_eq_of_lt (by omega) (by norm_num; omega)]
  exact humanateBytes_length v.toNat (by omega) (by omega)

/-- C5 witness: the bounds at the concrete input 1536. -/
theorem humanizeBytes_length_bounds_witness :
    2 ≤ (humanizeBytes 1536).length ∧ (humanizeBytes 1536).length ≤ 6 :=
  humanizeBytes_length_bounds 1536 (by norm_num) (by norm_num)

/-- C4: the four documented concrete values of the byte humanizer:
zero-marker at 0, `"7 B"` at 7, `"1.5K"` at 1536 and `"1G"` at 2^30. -/
theorem humanizeBytes_concrete_values :
    humanizeBytes 0 = ZeroValue ∧ humanizeBytes 7 = ['7', ' ', 'B'] ∧
      humanizeBytes 1536 = ['1', '.', '5', 'K'] ∧
      humanizeBytes 1073741824 = ['1', 'G'] := by
  decide

/-- C10: for every representable `int64` input (negatives included, via
the `uint64` reinterpretation) the scale exponent stays strictly below
the length of the seven-entry suffix table. -/
theorem humanate_exponent_in_bounds (v : ℤ) (h1 : -(2 ^ 63) ≤ v) (h2 : v < 2 ^ 63) :
    natLog 1024 ((v % 2 ^ 64).toNat) < sizesTable.length := by
  have hlen : sizesTable.length = 7 := rfl
  rw [hlen]
  apply natLog_lt_seven
  have hnn : 0 ≤ v % 2 ^ 64 := Int.emod_nonneg v (by norm_num)
  have hub : v % 2 ^ 64 < 2 ^ 64 := Int.emod_lt_of_pos v (by norm_num)
  omega

/-- C10 witness: the exponent bound at the concrete input `-1`
(reinterpreted as `2^64 - 1`). -/
theorem humanate_exponent_in_bounds_witness :
    natLog 1024 (((-1 : ℤ) % 2 ^ 64).toNat) < sizesTable.length :=
  humanate_exponent_in_bounds (-1) (by norm_num) (by norm_num)

/-- The two padded digits of `%.2f`'s fractional part. -/
def pad2 (n : ℕ) : List Char := [Nat.digitChar (n / 10), Nat.digitChar (n % 10)]

/-- `decimal` from helpers.go.  `vf = v/1000` exactly; the branch
conditions `vf < 0.01`, `vf < 1`, `vf < 10` become `v < 10`, `v < 1000`,
`v < 10000` over the integers (negative inputs are clamped to 0 and land
in the first branch).  `%.2f`, `%.1f` and `%.0f` print the half-even
roundings of `vf` at hundredths (`rhe v 10`), tenths (`rhe v 100`) and
units (`rhe v 1000`); the sub-unit branch strips the leading `"0."` and
re-attaches a dot, then drops a trailing zero from a three-character
`".XY"` whose tenths digit is non-zero. -/
def decimalGo (v : ℤ) : List Char :=
  if v < 10 then ['0']
  else if v < 1000 then
    let n2 := rhe v.toNat 10
    let ret := '.' :: stripZeroDot (natRepr (n2 / 100) ++ '.' :: pad2 (n2 % 100))
    if ret.length = 3 ∧ ret.getD 1 ' ' ≠ '0' then trimZero ret else ret
  else if v < 10000 then
    let n1 := rhe v.toNat 100
    trimDotZero (natRepr (n1 / 10) ++ ['.', Nat.digitChar (n1 % 10)])
  else natRepr (rhe v.toNat 1000)

def isDigitCh (c : Char) : Bool := decide ('0' ≤ c ∧ c ≤ '9')

/-- Value of a digit string read left to right. -/
def digitsVal (l : List Char) : ℕ := l.foldl (fun a c => 10 * a + (c.toNat - 48)) 0

/-- The numeric value a formatted string denotes, when it is a decimal
numeral: optional integer digits, then optionally a single dot followed
by at least one fractional digit. -/
def parseDec (s : List Char) : Option ℚ :=
  if s.all isDigitCh ∧ s ≠ [] then some ((digitsVal s : ℚ))
  else
    match s.dropWhile (fun c => c != '.') with
    | [] => none
    | _ :: b =>
      if (s.takeWhile (fun c => c != '.')).all isDigitCh ∧ b.all isDigitCh ∧ b ≠ [] then
        some ((digitsVal (s.takeWhile (fun c => c != '.')) : ℚ) +
          (digitsVal b : ℚ) / (10 : ℚ) ^ b.length)
      else none

/-- C3 supporting theorem: at input 996 (`vf = 0.996`) the `%.2f`
rounding reaches `"1.00"`, the `"0."`-strip does not apply, and
`decimal` emits the malformed `".1.00"`, a string denoting no numeric
value — so the displayed values of `decimal` are not monotone over any
interval containing 996. -/
theorem decimal_996_malformed :
    decimalGo 996 = ['.', '1', '.', '0', '0'] ∧
      parseDec (decimalGo 996) = none := by
  decide

/-- Round a rational to the nearest integer, ties to even (`%.0f`). -/
def rheQ (q : ℚ) : ℤ :=
  if q - ⌊q⌋ < 1 / 2 then ⌊q⌋
  else if 1 / 2 < q - ⌊q⌋ then ⌊q⌋ + 1
  else if ⌊q⌋ % 2 = 0 then ⌊q⌋ else ⌊q⌋ + 1

/-- `fmt.Sprintf("%d", z)` for a signed integer (the `-0` rendering of
negative fractions rounding to zero is not modelled; no theorem below
evaluates a percentage). -/
def intRepr (z : ℤ) : List Char :=
  if z < 0 then '-' :: natRepr z.natAbs else natRepr z.toNat

/-- The `"(NN%)"` annotation `fmt.Sprintf("(%.0f%%)", pct)`. -/
def pctAnnotation (pct : ℚ) : List Char :=
  '(' :: intRepr (rheQ pct) ++ ['%', ')']

/-- `memPct` from helpers.go. -/
def memPct (v l : ℤ) : List Char :=
  if l ≤ 0 then humanizeBytes v
  else humanizeBytes v ++ '/' :: humanizeBytes l ++ pctAnnotation ((v : ℚ) / (l : ℚ) * 100)

/-- `decimalPct` from helpers.go. -/
def decimalPct (v l : ℤ) : List Char :=
  if l ≤ 0 then decimalGo v
  else decimalGo v ++ '/' :: decimalGo l ++ pctAnnotation ((v : ℚ) / (l : ℚ) * 100)

/-- C6: with a non-positive limit both ratio annotators degrade to the
single-value form of `used`, with no percentage annotation. -/
theorem ratio_degrades_no_limit (v l : ℤ) (h : l ≤ 0) :
    memPct v l = humanizeBytes v ∧ decimalPct v l = decimalGo v := by
  unfold memPct decimalPct
  rw [if_pos h, if_pos h]
  exact ⟨rfl, rfl⟩

/-- C6 witness: both annotators at `used = 50`, `limit = 0`. -/
theorem ratio_degrades_no_limit_witness :
    memPct 50 0 = humanizeBytes 50 ∧ decimalPct 50 0 = decimalGo 50 :=
  ratio_degrades_no_limit 50 0 (by norm_num)

/-- `ToAge` from helpers.go, with the external collaborators abstracted:
time instants are nanosecond counts with `0` the zero instant (matching
`t.IsZero()`), and `duration.HumanDuration` composed with the current
wall clock enters as the parameter `human` applied to `now - t`. -/
def ToAge (human : ℤ → List Char) (now t : ℤ) : List Char :=
  if t = 0 then UnknownValue else human (now - t)

/-- `toAgeHuman` from helpers.go: empty input yields the unknown
sentinel; `time.Parse(time.RFC3339, s)` is abstracted as the fallible
parameter `parse`, whose failure yields the not-applicable sentinel. -/
def toAgeHuman (parse : List Char → Option ℤ) (human : ℤ → List Char)
    (now : ℤ) (s : List Char) : List Char :=
  if s = [] then UnknownValue
  else
    match parse s with
    | none => NAValue
    | some t => human (now - t)

/-- C7: the temporal formatter maps each failure class to its sentinel:
zero timestamp and empty string give the unknown sentinel, a non-empty
string that fails parsing gives the not-applicable sentinel, and the two
sentinels are distinct. -/
theorem temporal_sentinels (human : ℤ → List Char) (parse : List Char → Option ℤ)
    (now : ℤ) (s : List Char) (hs : s ≠ []) (hp : parse s = none) :
    ToAge human now 0 = UnknownValue ∧
      toAgeHuman parse human now [] = UnknownValue ∧
      toAgeHuman parse human now s = NAValue ∧
      NAValue ≠ UnknownValue := by
  refine ⟨rfl, rfl, ?_, by decide⟩
  unfold toAgeHuman
  rw [if_neg hs, hp]

/-- C7 witness: the sentinels at the concrete unparseable input `"x"`. -/
theorem temporal_sentinels_witness :
    ToAge (fun _ => []) 0 0 = UnknownValue ∧
      toAgeHuman (fun _ => none) (fun _ => []) 0 [] = UnknownValue ∧
      toAgeHuman (fun _ => none) (fun _ => []) 0 ['x'] = NAValue ∧
      NAValue ≠ UnknownValue :=
  temporal_sentinels (fun _ => []) (fun _ => none) 0 ['x'] (by decide) rfl

theorem char_eq_of_toNat_eq {x y : Char} (h : x.toNat = y.toNat) : x = y := by
  apply Char.eq_of_val_eq
  apply UInt32.eq_of_val_eq
  apply Fin.ext
  exact h

/-- Byte-wise lexicographic string comparison, the order used by
`sort.Strings` (on UTF-8 text byte-wise order and code-point order
coincide). -/
def lexLe : List Char → List Char → Bool
  | [], _ => true
  | _ :: _, [] => false
  | a :: as, b :: bs =>
    if a.toNat < b.toNat then true
    else if b.toNat < a.toNat then false
    else lexLe as bs

def keyLe (s t : String) : Bool := lexLe s.data t.data

/-- The sorting relation on map keys. -/
def keyOrder (a b : String) : Prop := keyLe a b = true

instance : DecidableRel keyOrder := fun a b =>
  inferInstanceAs (Decidable (keyLe a b = true))

theorem lexLe_total : ∀ a b : List Char, lexLe a b = true ∨ lexLe b a = true := by
  intro a
  induction a with
  | nil => intro b; left; rfl
  | cons x as ih =>
    intro b
    cases b with
    | nil => right; rfl
    | cons y bs =>
      simp only [lexLe]
      rcases Nat.lt_trichotomy x.toNat y.toNat with h | h | h
      · left; rw [if_pos h]
      · rcases ih bs with h' | h'
        · left; rw [if_neg (by omega), if_neg (by omega)]; exact h'
        · right; rw [if_neg (by omega), if_neg (by omega)]; exact h'
      · right; rw [if_pos h]

theorem lexLe_trans :
    ∀ a b c : List Char, lexLe a b = true → lexLe b c = true → lexLe a c = true := by
  intro a
  induction a with
  | nil => intro b c _ _; rfl
  | cons x as ih =>
    intro b c h1 h2
    cases b with
    | nil => simp [lexLe] at h1
    | cons y bs =>
      cases c with
      | nil => simp [lexLe] at h2
      | cons z cs =>
        simp only [lexLe] at h1 h2 ⊢
        split at h1
        · next hxy =>
          split at h2
          · next hyz => rw [if_pos (by omega)]
          · split at h2
            · simp at h2
            · next hzy => rw [if_pos (by omega)]
        · next hxy =>
          split at h1
          · simp at h1
          · next hyx =>
            split at h2
            · next hyz => rw [if_pos (by omega)]
            · split at h2
              · simp at h2
              · next hzy =>
                rw [if_neg (by omega), if_neg (by omega)]
                exact ih bs cs h1 h2

theorem lexLe_antisymm :
    ∀ a b : List Char, lexLe a b = true → lexLe b a = true → a = b := by
  intro a
  induction a with
  | nil =>
    intro b h1 h2
    cases b with
    | nil => rfl
    | cons y bs => simp [lexLe] at h2
  | cons x as ih =>
    intro b h1 h2
    cases b with
    | nil => simp [lexLe] at h1
    | cons y bs =>
      simp only [lexLe] at h1 h2
      by_cases hxy : x.toNat < y.toNat
      · rw [if_neg (by omega), if_pos hxy] at h2
        simp at h2
      · by_cases hyx : y.toNat < x.toNat
        · rw [if_neg hxy, if_pos hyx] at h1
          simp at h1
        · rw [if_neg hxy, if_neg hyx] at h1
          rw [if_neg hyx, if_neg hxy] at h2
          rw [char_eq_of_toNat_eq (show x.toNat = y.toNat by omega), ih bs h1 h2]

instance : IsTotal String keyOrder :=
  ⟨fun a b => lexLe_total a.data b.data⟩

instance : IsTrans String keyOrder :=
  ⟨fun a b c => lexLe_trans a.data b.data c.data⟩

instance : IsAntisymm String keyOrder :=
  ⟨fun a b h1 h2 => by
    have := lexLe_antisymm a.data b.data h1 h2
    cases a
    cases b
    simp only at this
    rw [this]⟩

/-- `sort.Strings`: sort the key list lexicographically. -/
def sortKeys (ks : List String) : List String := List.insertionSort keyOrder ks

/-- `strings.Join` / the indexed building loops of helpers.go: the
separator is appended after every element except the one at the last
index. -/
def joinWith (sep : Char) : List (List Char) → List Char
  | [] => []
  | [a] => a
  | a :: rest => a ++ sep :: joinWith sep rest

/-- `toSelector` from helpers.go: renders the `k=v` pairs in the order
the map iteration yields them — no sorting — and joins them with commas.
A Go map is modelled as the key list `keys` in iteration order together
with the value function `f`; permuted key lists with pointwise equal
values denote the same map content. -/
def toSelector (keys : List String) (f : String → String) : List Char :=
  joinWith ',' (keys.map fun k => k.data ++ '=' :: (f k).data)

/-- `mapToStr` from helpers.go: the empty map gives the empty string;
otherwise the keys are sorted and the `k=v` pairs joined with commas. -/
def mapToStr (keys : List String) (f : String → String) : List Char :=
  if keys = [] then []
  else joinWith ',' ((sortKeys keys).map fun k => k.data ++ '=' :: (f k).data)

def cexSelMap : String → String := fun k => if k = "a" then "1" else "2"

/-- C1 counterexample: `toSelector` follows the iteration order of the
map — the same two-pair map presented in its two iteration orders
produces different strings, so `toSelector` is not a function of map
content alone. -/
theorem toSelector_order_dependent :
    List.Perm ["a", "b"] ["b", "a"] ∧
      toSelector ["a", "b"] cexSelMap ≠ toSelector ["b", "a"] cexSelMap := by
  constructor
  · exact List.Perm.swap "b" "a" []
  · decide

/-- C1 (amended): `mapToStr` is a pure function of map content — any two
key lists that are permutations of each other, with pointwise equal
values, serialize to byte-identical output — and both `mapToStr` and
`toSelector` map the empty map to the empty string.  (`toSelector` on
non-empty maps follows iteration order; see the counterexample.) -/
theorem mapToStr_content_determined (ks1 ks2 : List String) (f1 f2 : String → String)
    (hperm : List.Perm ks1 ks2) (hf : ∀ k ∈ ks1, f1 k = f2 k) :
    mapToStr ks1 f1 = mapToStr ks2 f2 ∧
      mapToStr [] f1 = [] ∧ toSelector [] f1 = [] := by
  refine ⟨?_, rfl, rfl⟩
  have hsort : sortKeys ks1 = sortKeys ks2 := by
    unfold sortKeys
    exact List.eq_of_perm_of_sorted
      (((List.perm_insertionSort keyOrder ks1).trans hperm).trans
        (List.perm_insertionSort keyOrder ks2).symm)
      (List.sorted_insertionSort keyOrder ks1)
      (List.sorted_insertionSort keyOrder ks2)
  by_cases h0 : ks1 = []
  · subst h0
    have h2 : ks2 = [] := hperm.symm.eq_nil
    rw [h2]
    rfl
  · have h2 : ks2 ≠ [] := by
      intro hh
      subst hh
      exact h0 hperm.eq_nil
    unfold mapToStr
    rw [if_neg h0, if_neg h2, hsort]
    congr 1
    apply List.map_congr_left
    intro k hk
    have hk1 : k ∈ ks1 := by
      rw [← hsort] at hk
      exact (List.perm_insertionSort keyOrder ks1).mem_iff.mp hk
    rw [hf k hk1]

def sharedValMap : String → String := fun k => if k = "a" then "x" else "y"

/-- C1 witness: the amended statement at the concrete two-key map
presented in both iteration orders. -/
theorem mapToStr_content_determined_witness :
    mapToStr ["a", "b"] sharedValMap = mapToStr ["b", "a"] sharedValMap ∧
      mapToStr [] sharedValMap = [] ∧ toSelector [] sharedValMap = [] :=
  mapToStr_content_determined ["a", "b"] ["b", "a"] sharedValMap sharedValMap
    (List.Perm.swap "b" "a" []) (fun _ _ => rfl)

/-- A value of a loosely typed Go `map[string]any`: a plain string or
anything else. -/
inductive GoVal
  | str (s : String)
  | other

def isStrVal : GoVal → Bool
  | .str _ => true
  | .other => false

/-- The per-key loop of `mapToIfc` over the sorted keys: a `k=v` pair is
emitted only when the value is a plain string (`continue` otherwise),
and an emitted pair is followed by a single space whenever its index is
not the last index of the key list. -/
def ifcGo (f : String → GoVal) : List String → List Char
  | [] => []
  | [k] =>
    match f k with
    | .str v => k.data ++ '=' :: v.data
    | .other => []
  | k :: ks =>
    (match f k with
      | .str v => k.data ++ '=' :: v.data ++ [' ']
      | .other => []) ++ ifcGo f ks

/-- The `any`-typed argument of `mapToIfc`: `nil`, a value that is not a
`map[string]any`, or such a map (as iteration keys plus value function). -/
inductive IfcArg
  | nilArg
  | notMap
  | mapV (keys : List String) (f : String → GoVal)

/-- `mapToIfc` from helpers.go: `nil`, non-map and empty-map arguments
give the empty string, otherwise the sorted keys are rendered by the
indexed loop. -/
def mapToIfc : IfcArg → List Char
  | .nilArg => []
  | .notMap => []
  | .mapV keys f => if keys = [] then [] else ifcGo f (sortKeys keys)

/-- The pairs C8 says are emitted: exactly the string-valued entries, in
sorted key order. -/
def emitPairs (f : String → GoVal) (ks : List String) : List (List Char) :=
  ks.filterMap fun k =>
    match f k with
    | .str v => some (k.data ++ '=' :: v.data)
    | .other => none

/-- The serialization C8 claims: the emitted pairs joined by exactly one
space, with no leading or trailing separator. -/
def mapToIfcSpec (keys : List String) (f : String → GoVal) : List Char :=
  joinWith ' ' (emitPairs f (sortKeys keys))

/-- The trailing separator the code actually leaves: one space whenever
some pair was emitted but the value at the greatest key is not a string. -/
def trailIfc (f : String → GoVal) (ks : List String) : List Char :=
  if emitPairs f ks ≠ [] ∧ ks.getLast?.all (fun k => !isStrVal (f k)) = true then [' ']
  else []

theorem joinWith_cons (sep : Char) (a : List Char) (rest : List (List Char))
    (h : rest ≠ []) : joinWith sep (a :: rest) = a ++ sep :: joinWith sep rest := by
  cases rest with
  | nil => exact absurd rfl h
  | cons b bs => rfl

/-- Characterization of the `mapToIfc` loop: it renders the emitted
pairs joined by single spaces, plus a trailing space exactly when
something was emitted but the value at the last key is not a string. -/
theorem ifcGo_characterization (f : String → GoVal) :
    ∀ ks : List String, ifcGo f ks = joinWith ' ' (emitPairs f ks) ++ trailIfc f ks := by
  intro ks
  induction ks with
  | nil => rfl
  | cons k tl ih =>
    cases tl with
    | nil =>
      cases hfk : f k with
      | str v => simp [ifcGo, emitPairs, trailIfc, joinWith, hfk, isStrVal]
      | other => simp [ifcGo, emitPairs, trailIfc, joinWith, hfk, isStrVal]
    | cons k2 rest =>
      have hlast : (k :: k2 :: rest).getLast? = (k2 :: rest).getLast? :=
        List.getLast?_cons_cons ..
      cases hfk : f k with
      | other =>
        have hlhs : ifcGo f (k :: k2 :: rest) = ifcGo f (k2 :: rest) := by
          simp [ifcGo, hfk]
        have hemit : emitPairs f (k :: k2 :: rest) = emitPairs f (k2 :: rest) := by
          simp [emitPairs, List.filterMap_cons, hfk]
        have htrail : trailIfc f (k :: k2 :: rest) = trailIfc f (k2 :: rest) := by
          unfold trailIfc
          rw [hemit, hlast]
        rw [hlhs, hemit, htrail, ih]
      | str v =>
        have hlhs : ifcGo f (k :: k2 :: rest) =
            (k.data ++ '=' :: v.data ++ [' ']) ++ ifcGo f (k2 :: rest) := by
          simp [ifcGo, hfk]
        have hemit : emitPairs f (k :: k2 :: rest) =
            (k.data ++ '=' :: v.data) :: emitPairs f (k2 :: rest) := by
          simp [emitPairs, List.filterMap_cons, hfk]
        by_cases hemp : emitPairs f (k2 :: rest) = []
        · have htailnil : ifcGo f (k2 :: rest) = [] := by
            rw [ih, hemp]
            unfold trailIfc
            rw [hemp]
            simp [joinWith]
          have hallnone := List.filterMap_eq_nil.mp hemp
          have hlastmem : (k2 :: rest).getLast (by simp) ∈ k2 :: rest :=
            List.getLast_mem _
          have hlaststr : isStrVal (f ((k2 :: rest).getLast (by simp))) = false := by
            have hnone := hallnone _ hlastmem
            cases hfx : f ((k2 :: rest).getLast (by simp)) with
            | str w => rw [hfx] at hnone; simp at hnone
            | other => rfl
          have htrail : trailIfc f (k :: k2 :: rest) = [' '] := by
            unfold trailIfc
            rw [hemit, hemp, hlast, List.getLast?_eq_getLast_of_ne_nil (by simp)]
            rw [if_pos]
            refine ⟨by simp, ?_⟩
            simp [Option.all, hlaststr]
          rw [hlhs, htailnil, hemit, hemp, htrail]
          simp [joinWith]
        · have hjoin : joinWith ' ' ((k.data ++ '=' :: v.data) :: emitPairs f (k2 :: rest)) =
              (k.data ++ '=' :: v.data) ++ ' ' :: joinWith ' ' (emitPairs f (k2 :: rest)) :=
            joinWith_cons _ _ _ hemp
          have htrail : trailIfc f (k :: k2 :: rest) = trailIfc f (k2 :: rest) := by
            unfold trailIfc
            rw [hemit, hlast]
            have h1 : ((k.data ++ '=' :: v.data) :: emitPairs f (k2 :: rest)) ≠ [] := by
              simp
            by_cases hl : ((k2 :: rest).getLast?.all fun x => !isStrVal (f x)) = true
            · rw [if_pos ⟨h1, hl⟩, if_pos ⟨hemp, hl⟩]
            · rw [if_neg (fun hh => hl hh.2), if_neg (fun hh => hl hh.2)]
          rw [hlhs, ih, hemit, hjoin, htrail]
          simp [List.append_assoc]

def cexIfcMap : String → GoVal := fun k => if k = "a" then .str "1" else .other

/-- C8 counterexample: for the sorted map `{a ↦ "1", b ↦ non-string}`
the code emits `"a=1 "` — the pair at a non-final sorted index keeps its
separator even though it is the last emitted pair, leaving a trailing
space, so the output differs from the claimed no-trailing-separator
join. -/
theorem mapToIfc_trailing_space :
    mapToIfc (.mapV ["a", "b"] cexIfcMap) = ['a', '=', '1', ' '] ∧
      mapToIfc (.mapV ["a", "b"] cexIfcMap) ≠ mapToIfcSpec ["a", "b"] cexIfcMap := by
  constructor <;> decide

/-- C8 (amended): `mapToIfc` emits exactly the string-valued entries in
sorted key order joined by single spaces with no leading separator, and
additionally leaves one trailing space exactly when at least one pair
was emitted and the value at the greatest key is not a plain string. -/
theorem mapToIfc_characterization (keys : List String) (f : String → GoVal) :
    mapToIfc (.mapV keys f) = mapToIfcSpec keys f ++ trailIfc f (sortKeys keys) := by
  have hdef : mapToIfc (.mapV keys f) =
      if keys = [] then [] else ifcGo f (sortKeys keys) := rfl
  rw [hdef]
  unfold mapToIfcSpec
  by_cases h0 : keys = []
  · subst h0
    rw [if_pos rfl]
    rfl
  · rw [if_neg h0]
    exact ifcGo_characterization f (sortKeys keys)

/-- C2 witness: the exact-width invariant at the concrete ASCII input
`"abc"` padded to width 5. -/
theorem pad_width_exact_ascii_witness :
    (stringWidth (Pad ['a', 'b', 'c'] 5) : ℤ) = 5 :=
  pad_width_exact_ascii ['a', 'b', 'c'] 5 (by decide) (by norm_num)
